import Mathlib

/-!
Verification development for the zenith-converter repository.

The definitions below are a shallow embedding of the JavaScript sources:
  * src/services/pdfEngine.js   (PDF engine: scan, render, index, page counter)
  * src/utils/helpers.js        (shouldExclude, sanitizeName)
  * src/services/jobManager.js  (job records, retention timers)
  * src/config/constants.js     (numeric limits)

JS strings are modelled as `List Char` (one entry per UTF-16 code unit for the
BMP characters all the relevant code paths deal in), byte buffers as
`List Nat`, and the in-memory job map as an association list together with the
set of scheduled `setTimeout` deletions.
-/

namespace Zenith

/-! ## Content renderer: control stripping, truncation, binary detection
    (src/services/pdfEngine.js, drawContent and the per-file loop) -/

/-- Character class removed by drawContent's regex
    `/[\x00-\x08\x0B\x0C\x0E-\x1F\x7F-\x9F]/g` (pdfEngine.js line 143). -/
def removedByStrip (c : Char) : Bool :=
  decide (c.toNat ≤ 0x08) || decide (c.toNat = 0x0B) || decide (c.toNat = 0x0C) ||
  (decide (0x0E ≤ c.toNat) && decide (c.toNat ≤ 0x1F)) ||
  (decide (0x7F ≤ c.toNat) && decide (c.toNat ≤ 0x9F))

/-- `content.replace(/[\x00-\x08\x0B\x0C\x0E-\x1F\x7F-\x9F]/g, "")`:
    delete every character of the removed class, keep everything else. -/
def stripControls (l : List Char) : List Char :=
  l.filter (fun c => !(removedByStrip c))

/-- `CONSTANTS.LIMITS.MAX_FILE_READ_BYTES` (constants.js line 18). -/
def MAX_FILE_READ_BYTES : Nat := 100000

/-- Number of UTF-16 code units a character occupies in a JS string. -/
def utf16Size (c : Char) : Nat := if c.toNat < 0x10000 then 1 else 2

/-- JS `String.prototype.slice(0, budget)`: keep a leading portion of the
    string holding at most `budget` UTF-16 code units.  (The model never
    splits a surrogate pair: a character is kept only when it fits whole.) -/
def sliceUnits : Nat → List Char → List Char
  | _, [] => []
  | budget, c :: rest =>
    if utf16Size c ≤ budget then c :: sliceUnits (budget - utf16Size c) rest
    else []

/-- The text drawContent lays out for a text file (pdfEngine.js lines 142-144):
    strip the control class, then `.slice(0, MAX_FILE_READ_BYTES)`. -/
def drawContentText (content : List Char) : List Char :=
  sliceUnits MAX_FILE_READ_BYTES (stripControls content)

/-- UTF-8 byte length of a decoded string. -/
def utf8Len (l : List Char) : Nat := (l.map Char.utf8Size).sum

/-- UTF-16 code-unit length of a decoded string. -/
def utf16Len (l : List Char) : Nat := (l.map utf16Size).sum

/-- `buffer.slice(0, 1000).includes(0)` (pdfEngine.js line 66): a file is
    classified binary when a null byte occurs among its first 1000 bytes. -/
def isBinary (bytes : List Nat) : Bool := (bytes.take 1000).contains 0

/-- What the engine emits into the document for one file's section. -/
inductive FileSection : Type where
  | binaryNotice : FileSection
  | errorNotice : FileSection
  | textContent (t : List Char) : FileSection
deriving DecidableEq

/-- The per-file body of the render loop (pdfEngine.js lines 63-75): read the
    file (a result that may be an error), classify, and emit a section.
    `decode` stands for `buffer.toString("utf8")`. -/
def renderFileSection (decode : List Nat → List Char) :
    Except String (List Nat) → FileSection
  | .error _ => .errorNotice
  | .ok bytes =>
    if isBinary bytes then .binaryNotice
    else .textContent (drawContentText (decode bytes))

/-- The job-level shape of PDFEngine.process (pdfEngine.js lines 18-102):
    extraction failure fails the job; otherwise every file is rendered to a
    section inside its own try/catch, and finalization decides the terminal
    status.  Per-file read errors never escape the loop. -/
def runJob (decode : List Nat → List Char) (extractOk : Bool)
    (files : List (String × Except String (List Nat))) (finalizeOk : Bool) :
    String × List FileSection :=
  if !extractOk then ("failed", [])
  else
    let sections := files.map (fun f => renderFileSection decode f.2)
    if finalizeOk then ("completed", sections) else ("failed", sections)

/-! ### Closed-form facts about the stripping class used by claim C4 -/

/-- The C0 range (0x00-0x1F) together with the C1 range (0x80-0x9F). -/
def isC0orC1 (c : Char) : Bool :=
  decide (c.toNat ≤ 0x1F) || (decide (0x80 ≤ c.toNat) && decide (c.toNat ≤ 0x9F))

theorem stripControls_of_forall_kept (l : List Char)
    (h : ∀ c ∈ l, removedByStrip c = false) : stripControls l = l := by
  unfold stripControls
  refine List.filter_eq_self.mpr ?_
  intro a ha
  simp [h a ha]

theorem stripControls_idem (l : List Char) :
    stripControls (stripControls l) = stripControls l := by
  unfold stripControls
  rw [List.filter_filter]
  apply List.filter_congr
  intro a _
  cases removedByStrip a <;> rfl

/-- C4 (as stated) is refuted at TAB: `\x09` is a C0 control that is neither
    CR nor LF, yet the code's stripping keeps it. -/
theorem strip_keeps_tab :
    isC0orC1 (Char.ofNat 9) = true ∧
    (Char.ofNat 9).toNat ≠ 13 ∧ (Char.ofNat 9).toNat ≠ 10 ∧
    removedByStrip (Char.ofNat 9) = false ∧
    stripControls [Char.ofNat 9] = [Char.ofNat 9] := by
  refine ⟨by decide, by decide, by decide, by decide, ?_⟩
  apply stripControls_of_forall_kept
  intro c hc
  simp at hc
  subst hc
  decide

/-- C4 amended: the stripping removes exactly the C0 and C1 control
    characters and DEL, other than TAB, CR and LF; every printable ASCII
    character is kept, and stripping is idempotent. -/
theorem strip_removes_exactly_amended :
    (∀ c : Char, removedByStrip c = true ↔
      ((isC0orC1 c = true ∨ c.toNat = 0x7F) ∧
        c.toNat ≠ 9 ∧ c.toNat ≠ 10 ∧ c.toNat ≠ 13)) ∧
    (∀ l : List Char, (∀ c ∈ l, 0x20 ≤ c.toNat ∧ c.toNat ≤ 0x7E) →
      stripControls l = l) ∧
    (∀ l : List Char, stripControls (stripControls l) = stripControls l) := by
  refine ⟨?_, ?_, stripControls_idem⟩
  · intro c
    simp only [removedByStrip, isC0orC1, Bool.or_eq_true, Bool.and_eq_true,
      decide_eq_true_eq]
    omega
  · intro l h
    apply stripControls_of_forall_kept
    intro c hc
    have hb := h c hc
    simp only [removedByStrip, Bool.or_eq_false_iff, Bool.and_eq_false_iff,
      decide_eq_false_iff_not]
    omega

theorem strip_removes_exactly_amended_witness :
    removedByStrip (Char.ofNat 0) = true ∧
    stripControls [Char.ofNat 65] = [Char.ofNat 65] :=
  ⟨(strip_removes_exactly_amended.1 (Char.ofNat 0)).mpr (by decide),
   strip_removes_exactly_amended.2.1 [Char.ofNat 65] (by decide)⟩

/-! ### Binary classification (claim C3) -/

/-- C3: a file is classified binary iff a null byte occurs among its first
    1000 bytes; a file whose null bytes all lie at offset 1000 or later
    (which covers offset 1001 and later in either counting convention) is
    classified text; and a binary-classified file's section is the one-line
    placeholder, so none of its bytes reach the document. -/
theorem isBinary_first_1000 (decode : List Nat → List Char) (bytes : List Nat) :
    (isBinary bytes = true ↔ ∃ i, i < 1000 ∧ bytes[i]? = some 0) ∧
    ((∀ i, bytes[i]? = some 0 → 1000 ≤ i) → isBinary bytes = false) ∧
    (isBinary bytes = true →
      renderFileSection decode (Except.ok bytes) = FileSection.binaryNotice) := by
  have hiff : isBinary bytes = true ↔ ∃ i, i < 1000 ∧ bytes[i]? = some 0 := by
    unfold isBinary
    rw [List.elem_iff, List.mem_take_iff_getElem]
    constructor
    · rintro ⟨i, hi, he⟩
      exact ⟨i, lt_of_lt_of_le hi (min_le_left _ _),
        by rw [List.getElem?_eq_getElem (lt_of_lt_of_le hi (min_le_right _ _))]; simp [he]⟩
    · rintro ⟨i, hi, he⟩
      have hlen : i < bytes.length := by
        by_contra hc
        rw [List.getElem?_eq_none (le_of_not_lt hc)] at he
        exact Option.noConfusion he
      refine ⟨i, lt_min hi hlen, ?_⟩
      rw [List.getElem?_eq_getElem hlen] at he
      exact (Option.some.injEq _ _).mp he
  refine ⟨hiff, ?_, ?_⟩
  · intro h
    cases hb : isBinary bytes with
    | false => rfl
    | true =>
      obtain ⟨i, hi, he⟩ := hiff.mp hb
      exact absurd (h i he) (by omega)
  · intro hb
    simp [renderFileSection, hb]

theorem isBinary_first_1000_witness :
    isBinary [1, 0, 2] = true ∧
    renderFileSection (fun _ => []) (Except.ok [1, 0, 2]) =
      FileSection.binaryNotice :=
  ⟨((isBinary_first_1000 (fun _ => []) [1, 0, 2]).1).mpr ⟨1, by decide, by decide⟩,
   (isBinary_first_1000 (fun _ => []) [1, 0, 2]).2.2 (by decide)⟩

/-! ### Truncation cap (claim C7) -/

theorem utf16Len_sliceUnits_le (b : Nat) (l : List Char) :
    utf16Len (sliceUnits b l) ≤ b := by
  induction l generalizing b with
  | nil => simp [sliceUnits, utf16Len]
  | cons c rest ih =>
    unfold sliceUnits
    by_cases h : utf16Size c ≤ b
    · simp only [h, if_true]
      have := ih (b - utf16Size c)
      simp only [utf16Len, List.map_cons, List.sum_cons] at *
      omega
    · simp [h, utf16Len]

theorem sliceUnits_sublist (b : Nat) (l : List Char) :
    List.Sublist (sliceUnits b l) l := by
  induction l generalizing b with
  | nil => simp [sliceUnits]
  | cons c rest ih =>
    unfold sliceUnits
    by_cases h : utf16Size c ≤ b
    · simp only [h, if_true]
      exact List.Sublist.cons₂ c (ih (b - utf16Size c))
    · simp [h]

theorem stripControls_replicate_kept (n : Nat) (c : Char)
    (h : removedByStrip c = false) :
    stripControls (List.replicate n c) = List.replicate n c := by
  apply stripControls_of_forall_kept
  intro a ha
  rw [List.eq_of_mem_replicate ha]
  exact h

theorem sliceUnits_replicate_narrow (c : Char) (h : utf16Size c = 1) :
    ∀ (n b : Nat), sliceUnits b (List.replicate n c) = List.replicate (min b n) c := by
  intro n
  induction n with
  | zero => intro b; simp [sliceUnits]
  | succ m ih =>
    intro b
    rw [List.replicate_succ]
    unfold sliceUnits
    rw [h]
    by_cases hb : 1 ≤ b
    · simp only [hb, if_true, ih (b - 1)]
      have hmin : min b (m + 1) = min (b - 1) m + 1 := by omega
      rw [hmin, List.replicate_succ]
    · have hb0 : b = 0 := by omega
      subst hb0
      simp

theorem utf8Len_replicate (n : Nat) (c : Char) :
    utf8Len (List.replicate n c) = n * c.utf8Size := by
  induction n with
  | zero => simp [utf8Len]
  | succ m ih =>
    rw [List.replicate_succ]
    simp only [utf8Len, List.map_cons, List.sum_cons] at *
    rw [Nat.succ_mul]
    omega

/-- C7 (as stated) is refuted: a file of 200,000 bytes that decodes to
    100,000 copies of U+00E9 (a two-byte UTF-8 character) is rendered in
    full, because the cap counts UTF-16 code units of the stripped text, not
    bytes.  The rendered text occupies 200,000 bytes, past the claimed cap,
    so bytes beyond the 100,000-byte offset of the file are rendered. -/
theorem drawContent_byte_cap_counterexample :
    MAX_FILE_READ_BYTES <
      utf8Len (drawContentText (List.replicate 100000 (Char.ofNat 0xE9))) := by
  unfold drawContentText
  rw [stripControls_replicate_kept 100000 (Char.ofNat 0xE9) (by decide)]
  rw [sliceUnits_replicate_narrow (Char.ofNat 0xE9) (by decide)]
  rw [utf8Len_replicate]
  have h2 : (Char.ofNat 0xE9).utf8Size = 2 := by decide
  rw [h2]
  norm_num [MAX_FILE_READ_BYTES]

/-- C7 amended: the rendered content is the control-stripped decoded text
    truncated to at most 100,000 UTF-16 code units (the cap applies to
    characters after stripping, not to raw bytes); it is always a
    subsequence of the decoded file content. -/
theorem drawContent_truncation_amended (content : List Char) :
    utf16Len (drawContentText content) ≤ MAX_FILE_READ_BYTES ∧
    List.Sublist (drawContentText content) content := by
  constructor
  · exact utf16Len_sliceUnits_le _ _
  · exact (sliceUnits_sublist _ _).trans (List.filter_sublist _)

/-! ### Per-file error isolation (claim C8) -/

/-- C8: with extraction and finalization succeeding, a file whose read
    throws is rendered as the inline error notice, every file still gets a
    section, and the job completes — a per-file error never fails the job. -/
theorem perFile_error_isolated (decode : List Nat → List Char)
    (files : List (String × Except String (List Nat)))
    (j : Nat) (name msg : String)
    (hfail : files[j]? = some (name, Except.error msg)) :
    (runJob decode true files true).1 = "completed" ∧
    (runJob decode true files true).2.length = files.length ∧
    (runJob decode true files true).2[j]? = some FileSection.errorNotice := by
  have h2 : (runJob decode true files true).2 =
      files.map (fun f => renderFileSection decode f.2) := by
    simp [runJob]
  refine ⟨by simp [runJob], ?_, ?_⟩
  · rw [h2, List.length_map]
  · rw [h2, List.getElem?_map, hfail]
    rfl

theorem perFile_error_isolated_witness :
    (runJob (fun _ => []) true [("a", Except.ok [65]), ("b", Except.error "EACCES")] true).1
      = "completed" ∧
    (runJob (fun _ => []) true [("a", Except.ok [65]), ("b", Except.error "EACCES")] true).2.length
      = 2 ∧
    (runJob (fun _ => []) true [("a", Except.ok [65]), ("b", Except.error "EACCES")] true).2[1]?
      = some FileSection.errorNotice := by
  have h := perFile_error_isolated (fun _ => [])
    [("a", Except.ok [65]), ("b", Except.error "EACCES")] 1 "b" "EACCES" rfl
  exact ⟨h.1, h.2.1, h.2.2⟩

/-! ## Path filter and tree scanner
    (src/utils/helpers.js shouldExclude, src/services/pdfEngine.js
    scanDirectory) -/

/-- JS `str.split(sep)` for a one-character separator. -/
def jsSplit (sep : Char) : List Char → List (List Char)
  | [] => [[]]
  | c :: rest =>
    match jsSplit sep rest with
    | [] => [[c]]
    | s :: ss => if c = sep then [] :: s :: ss else (c :: s) :: ss

/-- Reversed tail of a reversed basename up to and including its last dot:
    `none` when the basename holds no dot. -/
def extTail : List Char → Option (List Char)
  | [] => none
  | c :: rest =>
    if c = '.' then some [c] else (extTail rest).map (fun t => c :: t)

/-- Node's `path.extname` restricted to one path segment (the basename):
    the substring from the last dot, except that a dot in first position or
    the basename ".." yield the empty extension. -/
def extnameOfBase (b : List Char) : List Char :=
  match extTail b.reverse with
  | none => []
  | some t =>
    if t.length = b.length then []
    else if b = ['.', '.'] then [] else t.reverse

/-- The final `/`-separated segment of a path (its basename). -/
def lastSegment (p : List Char) : List Char := (jsSplit '/' p).getLastD []

/-- Node's `path.extname` on a forward-slash path: the extension of the
    final segment. -/
def extname (p : List Char) : List Char := extnameOfBase (lastSegment p)

/-- The exclusion rule set supplied with a job (two lists of strings). -/
structure Exclusions : Type where
  folders : List String
  extensions : List String

/-- Helpers.shouldExclude (helpers.js lines 11-21): split the relative path
    on `/`; exclude when a segment is in `folders` or when the lower-cased
    extension is in `extensions`. -/
def shouldExclude (relPath : String) (ex : Exclusions) : Bool :=
  if (jsSplit '/' relPath.toList).any
      (fun seg => ex.folders.contains (String.mk seg)) then true
  else if ex.extensions.contains
      (String.mk ((extname relPath.toList).map Char.toLower)) then true
  else false

/-- The specification's reading of the exclusion contract: some segment of
    the path is a member of `folders`, or the lower-cased extension of the
    final segment is a member of `extensions`. -/
def excludedSpec (relPath : String) (ex : Exclusions) : Prop :=
  (∃ seg ∈ jsSplit '/' relPath.toList, String.mk seg ∈ ex.folders) ∨
  String.mk ((extnameOfBase (lastSegment relPath.toList)).map Char.toLower)
    ∈ ex.extensions

/-! A directory tree as listed by `fs.readdirSync`, in listing order. -/

mutual
inductive FSEntry : Type where
  | file (name : String) : FSEntry
  | dir (name : String) (children : FSList) : FSEntry
inductive FSList : Type where
  | nil : FSList
  | cons (e : FSEntry) (es : FSList) : FSList
end

/-- Concatenation of path segments with `/`, as `path.relative` (normalized
    to forward slashes) produces for a file under the extraction root. -/
def joinSegsChars : List String → List Char
  | [] => []
  | [s] => s.toList
  | s :: t :: rest => s.toList ++ '/' :: joinSegsChars (t :: rest)

def joinSegs (segs : List String) : String := String.mk (joinSegsChars segs)

/-- A directory-entry name is valid when it is nonempty and holds no slash. -/
def validSegB (s : String) : Bool := !s.toList.isEmpty && !s.toList.contains '/'

mutual
/-- Names in a tree are all valid. -/
def validEntry : FSEntry → Bool
  | .file nm => validSegB nm
  | .dir nm cs => validSegB nm && validList cs
def validList : FSList → Bool
  | .nil => true
  | .cons e es => validEntry e && validList es
end

mutual
/-- PDFEngine.scanDirectory (pdfEngine.js lines 105-123) on one listed
    entry: skip it (and, for a directory, its whole subtree) when its
    relative path is excluded; recurse into directories; yield files.
    Results are the files' relative paths as segment lists. -/
def scanEntry (ex : Exclusions) (pre : List String) : FSEntry → List (List String)
  | .file nm =>
    if shouldExclude (joinSegs (pre ++ [nm])) ex then [] else [pre ++ [nm]]
  | .dir nm children =>
    if shouldExclude (joinSegs (pre ++ [nm])) ex then []
    else scanList ex (pre ++ [nm]) children
/-- scanDirectory's loop over a directory listing. -/
def scanList (ex : Exclusions) (pre : List String) : FSList → List (List String)
  | .nil => []
  | .cons e es => scanEntry ex pre e ++ scanList ex pre es
end

theorem jsSplit_ne_nil (sep : Char) (l : List Char) : jsSplit sep l ≠ [] := by
  cases l with
  | nil => simp [jsSplit]
  | cons c rest =>
    unfold jsSplit
    cases h : jsSplit sep rest with
    | nil => simp
    | cons s ss => by_cases hc : c = sep <;> simp [hc]

theorem jsSplit_of_not_mem (sep : Char) (l : List Char) (h : sep ∉ l) :
    jsSplit sep l = [l] := by
  induction l with
  | nil => rfl
  | cons c rest ih =>
    have hc : c ≠ sep := fun he => h (he ▸ List.mem_cons_self c rest)
    have hrest : sep ∉ rest := fun hm => h (List.mem_cons_of_mem c hm)
    simp only [jsSplit]
    rw [ih hrest]
    simp [hc]

theorem jsSplit_append_sep (sep : Char) (l m : List Char) (h : sep ∉ l) :
    jsSplit sep (l ++ sep :: m) = l :: jsSplit sep m := by
  induction l with
  | nil =>
    simp only [List.nil_append, jsSplit]
    cases hm : jsSplit sep m with
    | nil => exact absurd hm (jsSplit_ne_nil sep m)
    | cons s ss => simp
  | cons c rest ih =>
    have hc : c ≠ sep := fun he => h (he ▸ List.mem_cons_self c rest)
    have hrest : sep ∉ rest := fun hm => h (List.mem_cons_of_mem c hm)
    simp only [List.cons_append, jsSplit, List.append_eq]
    rw [ih hrest]
    simp [hc]

theorem jsSplit_joinSegsChars (segs : List String) (hne : segs ≠ [])
    (h : ∀ s ∈ segs, '/' ∉ s.toList) :
    jsSplit '/' (joinSegsChars segs) = segs.map String.toList := by
  induction segs with
  | nil => exact absurd rfl hne
  | cons s rest ih =>
    cases rest with
    | nil =>
      simp only [joinSegsChars, List.map]
      exact jsSplit_of_not_mem '/' s.toList (h s (by simp))
    | cons t rest2 =>
      simp only [joinSegsChars]
      rw [jsSplit_append_sep '/' s.toList _ (h s (by simp)),
        ih (by simp) (fun x hx => h x (List.mem_cons_of_mem s hx))]
      simp

theorem mk_toList (s : String) : String.mk s.toList = s := by
  cases s
  rfl

theorem shouldExclude_eq_or (relPath : String) (ex : Exclusions) :
    shouldExclude relPath ex =
      ((jsSplit '/' relPath.toList).any
          (fun seg => ex.folders.contains (String.mk seg)) ||
        ex.extensions.contains
          (String.mk ((extname relPath.toList).map Char.toLower))) := by
  unfold shouldExclude
  cases h1 : (jsSplit '/' relPath.toList).any
      (fun seg => ex.folders.contains (String.mk seg)) <;>
    cases h2 : ex.extensions.contains
        (String.mk ((extname relPath.toList).map Char.toLower)) <;>
      rfl

mutual
theorem scanEntry_sound (ex : Exclusions) (pre : List String) (e : FSEntry)
    (hv : validEntry e = true) (hpre : ∀ s ∈ pre, validSegB s = true) :
    ∀ r ∈ scanEntry ex pre e,
      shouldExclude (joinSegs r) ex = false ∧ ∀ s ∈ r, validSegB s = true := by
  cases e with
  | file nm =>
    intro r hr
    unfold scanEntry at hr
    rcases hex : shouldExclude (joinSegs (pre ++ [nm])) ex with _ | _
    · rw [hex] at hr
      simp at hr
      subst hr
      refine ⟨hex, ?_⟩
      intro s hs
      rcases List.mem_append.mp hs with hs1 | hs2
      · exact hpre s hs1
      · simp only [List.mem_singleton] at hs2
        subst hs2
        simpa [validEntry] using hv
    · rw [hex] at hr
      simp at hr
  | dir nm children =>
    intro r hr
    unfold scanEntry at hr
    rcases hex : shouldExclude (joinSegs (pre ++ [nm])) ex with _ | _
    · rw [hex] at hr
      simp only [Bool.false_eq_true, if_false] at hr
      have hv2 : validEntry (FSEntry.dir nm children) = true := hv
      simp only [validEntry, Bool.and_eq_true] at hv2
      refine scanList_sound ex (pre ++ [nm]) children hv2.2 ?_ r hr
      intro s hs
      rcases List.mem_append.mp hs with hs1 | hs2
      · exact hpre s hs1
      · simp only [List.mem_singleton] at hs2
        subst hs2
        exact hv2.1
    · rw [hex] at hr
      simp at hr
theorem scanList_sound (ex : Exclusions) (pre : List String) (t : FSList)
    (hv : validList t = true) (hpre : ∀ s ∈ pre, validSegB s = true) :
    ∀ r ∈ scanList ex pre t,
      shouldExclude (joinSegs r) ex = false ∧ ∀ s ∈ r, validSegB s = true := by
  cases t with
  | nil => simp [scanList]
  | cons e es =>
    intro r hr
    unfold scanList at hr
    have hv2 : validList (FSList.cons e es) = true := hv
    simp only [validList, Bool.and_eq_true] at hv2
    rcases List.mem_append.mp hr with h1 | h2
    · exact scanEntry_sound ex pre e hv2.1 hpre r h1
    · exact scanList_sound ex pre es hv2.2 hpre r h2
end

/-- C2: shouldExclude returns true exactly when a path segment is a member
    of the folder rules or the lower-cased extension of the final segment is
    a member of the extension rules; and, for the scanner on a tree of valid
    entry names, when a folder name is excluded no yielded file path starts
    with it — in particular a top-level excluded folder contributes no file. -/
theorem shouldExclude_iff_and_prunes (relPath : String) (ex : Exclusions)
    (F : String) (tree : FSList)
    (hF : F ∈ ex.folders) (hv : validList tree = true) :
    (shouldExclude relPath ex = true ↔ excludedSpec relPath ex) ∧
    (∀ r ∈ scanList ex [] tree, r.head? ≠ some F) := by
  constructor
  · rw [shouldExclude_eq_or]
    unfold excludedSpec
    simp only [Bool.or_eq_true, List.any_eq_true, List.elem_iff]
    exact Iff.rfl
  · intro r hr hhead
    obtain ⟨hex, hvalid⟩ :=
      scanList_sound ex [] tree hv (by simp) r hr
    obtain ⟨tail, rfl⟩ : ∃ tail, r = F :: tail := by
      cases r with
      | nil => simp at hhead
      | cons a tl =>
        simp only [List.head?_cons, Option.some.injEq] at hhead
        exact ⟨tl, by rw [hhead]⟩
    have hns : ∀ s ∈ F :: tail, '/' ∉ s.toList := by
      intro s hs hmem
      have hb := hvalid s hs
      simp only [validSegB, Bool.and_eq_true, Bool.not_eq_true'] at hb
      have hC : s.toList.contains '/' = true := List.elem_iff.mpr hmem
      rw [hb.2] at hC
      exact Bool.noConfusion hC
    rw [shouldExclude_eq_or] at hex
    simp only [Bool.or_eq_false_iff] at hex
    have hany := hex.1
    have htl : (joinSegs (F :: tail)).toList = joinSegsChars (F :: tail) := rfl
    rw [htl, jsSplit_joinSegsChars (F :: tail) (by simp) hns] at hany
    rw [List.any_eq_false] at hany
    have hcont := hany F.toList (by simp)
    rw [mk_toList] at hcont
    exact hcont (List.elem_iff.mpr hF)

/-- Concrete rule set and tree exercising the exclusion of a top-level
    folder. -/
def exC2 : Exclusions := ⟨["node_modules"], []⟩

def treeC2 : FSList :=
  .cons (.dir "node_modules" (.cons (.file "lib.js") .nil))
    (.cons (.file "a.js") .nil)

theorem shouldExclude_iff_and_prunes_witness :
    shouldExclude "node_modules/lib.js" exC2 = true ∧
    (["a.js"] : List String).head? ≠ some "node_modules" :=
  ⟨(shouldExclude_iff_and_prunes "node_modules/lib.js" exC2 "node_modules"
      treeC2 (by decide) (by decide)).1.mpr
      (Or.inl ⟨"node_modules".toList, by decide, by decide⟩),
   (shouldExclude_iff_and_prunes "node_modules/lib.js" exC2 "node_modules"
      treeC2 (by decide) (by decide)).2 ["a.js"] (by decide)⟩

/-! ## Output name sanitization
    (src/utils/helpers.js sanitizeName, convert.controller.js,
    pdfEngine.js lines 15-16) -/

/-- The character class kept by `replace(/[^a-zA-Z0-9_\-\.]/g, "_")`. -/
def allowedNameChar (c : Char) : Bool :=
  (decide ('a' ≤ c) && decide (c ≤ 'z')) ||
  (decide ('A' ≤ c) && decide (c ≤ 'Z')) ||
  (decide ('0' ≤ c) && decide (c ≤ '9')) ||
  decide (c = '_') || decide (c = '-') || decide (c = '.')

/-- Whether a four-character tail matches the regex `/\.zip$/i`. -/
def zipSuffixMatches : List Char → Bool
  | [a, b, c, d] =>
    a == '.' && (b == 'z' || b == 'Z') && (c == 'i' || c == 'I') &&
      (d == 'p' || d == 'P')
  | _ => false

/-- `name.replace(/\.zip$/i, "")`: drop a trailing ".zip" (any case). -/
def stripZipSuffix (l : List Char) : List Char :=
  if zipSuffixMatches (l.drop (l.length - 4)) then l.take (l.length - 4) else l

/-- The character mapping of `replace(/[^a-zA-Z0-9_\-\.]/g, "_")` followed by
    the suffix strip (helpers.js line 6). -/
def sanitizeChars (l : List Char) : List Char :=
  (stripZipSuffix l).map (fun c => if allowedNameChar c then c else '_')

/-- Helpers.sanitizeName (helpers.js lines 5-8), with the
    `clean || "Project_Export"` falsy fallback for the empty string. -/
def sanitizeName (name : String) : String :=
  if String.mk (sanitizeChars name.toList) = "" then "Project_Export"
  else String.mk (sanitizeChars name.toList)

/-- The document name derived in PDFEngine.process (pdfEngine.js line 15):
    `originalName + ".pdf"`; the output path is `path.join(DOWNLOADS, it)`. -/
def pdfNameOf (name : String) : String := sanitizeName name ++ ".pdf"

/-- A relative child component escapes its directory when it holds a path
    separator or is empty or a dot component; joining a non-escaping
    component under the downloads directory stays inside it. -/
def escapesDir (child : String) : Bool :=
  child.toList.any (fun c => c == '/' || c == '\\') ||
    child == "" || child == "." || child == ".."

theorem sanitizeChars_allowed (l : List Char) :
    ∀ c ∈ sanitizeChars l, allowedNameChar c = true := by
  intro c hc
  obtain ⟨a, _, ha⟩ := List.mem_map.mp hc
  by_cases h : allowedNameChar a = true
  · rw [← ha]
    simp [h]
  · have : allowedNameChar a = false := by
      cases hb : allowedNameChar a
      · rfl
      · exact absurd hb h
    rw [← ha]
    simp only [this, Bool.false_eq_true, if_false]
    decide

theorem toList_append (s t : String) : (s ++ t).toList = s.toList ++ t.toList := by
  cases s
  cases t
  rfl

theorem allowed_not_sep (c : Char) (h : allowedNameChar c = true) :
    (c == '/' || c == '\\') = false := by
  cases hb : (c == '/' || c == '\\') with
  | false => rfl
  | true =>
    rw [Bool.or_eq_true] at hb
    rcases hb with h1 | h1
    · rw [beq_iff_eq] at h1
      subst h1
      exact absurd h (by decide)
    · rw [beq_iff_eq] at h1
      subst h1
      exact absurd h (by decide)

/-- C10: sanitizeName never returns the empty string and emits only ASCII
    letters, digits, underscore, hyphen and dot; hence the derived document
    name `<sanitized>.pdf` holds no path separator and is not a dot
    component, so `path.join(DOWNLOADS, name)` stays directly inside the
    downloads directory. -/
theorem sanitizeName_safe (name : String) :
    sanitizeName name ≠ "" ∧
    (∀ c ∈ (sanitizeName name).toList, allowedNameChar c = true) ∧
    escapesDir (pdfNameOf name) = false := by
  have hallowed : ∀ c ∈ (sanitizeName name).toList, allowedNameChar c = true := by
    intro c hc
    unfold sanitizeName at hc
    by_cases h : String.mk (sanitizeChars name.toList) = ""
    · rw [if_pos h] at hc
      have hall : ("Project_Export" : String).toList.all allowedNameChar = true := by
        decide
      exact List.all_eq_true.mp hall c hc
    · rw [if_neg h] at hc
      exact sanitizeChars_allowed name.toList c hc
  have hne : sanitizeName name ≠ "" := by
    unfold sanitizeName
    by_cases h : String.mk (sanitizeChars name.toList) = ""
    · rw [if_pos h]
      decide
    · rw [if_neg h]
      exact h
  refine ⟨hne, hallowed, ?_⟩
  have htl : (pdfNameOf name).toList = (sanitizeName name).toList ++ ".pdf".toList :=
    toList_append _ _
  have hlen5 : 5 ≤ (pdfNameOf name).toList.length := by
    rw [htl, List.length_append]
    have h1 : 1 ≤ (sanitizeName name).toList.length := by
      rcases hl : (sanitizeName name).toList with _ | ⟨c, rest⟩
      · exact absurd (by rw [← mk_toList (sanitizeName name), hl]) hne
      · simp
    have h4 : (".pdf" : String).toList.length = 4 := by decide
    omega
  have hany : (pdfNameOf name).toList.any (fun c => c == '/' || c == '\\') = false := by
    rw [htl, List.any_append]
    refine Bool.or_eq_false_iff.mpr ⟨?_, by decide⟩
    rw [List.any_eq_false]
    intro c hc hcontra
    rw [allowed_not_sep c (hallowed c hc)] at hcontra
    exact Bool.noConfusion hcontra
  have hne0 : (pdfNameOf name == "") = false := by
    rw [beq_eq_false_iff_ne]
    intro he
    exact absurd (he ▸ hlen5) (by decide)
  have hne1 : (pdfNameOf name == ".") = false := by
    rw [beq_eq_false_iff_ne]
    intro he
    exact absurd (he ▸ hlen5) (by decide)
  have hne2 : (pdfNameOf name == "..") = false := by
    rw [beq_eq_false_iff_ne]
    intro he
    exact absurd (he ▸ hlen5) (by decide)
  unfold escapesDir
  rw [hany, hne0, hne1, hne2]
  rfl

theorem sanitizeName_safe_witness :
    sanitizeName "../evil.zip" ≠ "" ∧
    escapesDir (pdfNameOf "../evil.zip") = false ∧
    allowedNameChar 'e' = true :=
  ⟨(sanitizeName_safe "../evil.zip").1,
   (sanitizeName_safe "../evil.zip").2.2,
   (sanitizeName_safe "../evil.zip").2.1 'e' (by decide)⟩

/-! ## Page counter, TocEntry capture and index reservation
    (src/services/pdfEngine.js lines 39-59 and 141-164;
    src/config/constants.js PDF.LINES_PER_PAGE)

    The render loop is embedded parametrically in the number of overflow
    pages each file's drawContent adds (each `doc.addPage()` fired by the
    pagination rule at line 152): a file is a pair of its title and its
    overflow page count, so a file whose section spans `k` pages has
    overflow `k - 1`. -/

def LINES_PER_PAGE : Nat := 35

/-- `Math.ceil(a / b)` on natural numbers. -/
def ceilDiv (a b : Nat) : Nat := (a + b - 1) / b

/-- `Math.ceil(allFiles.length / LINES_PER_PAGE) + 1`
    (pdfEngine.js lines 44-45). -/
def requiredIndexPages (n : Nat) : Nat := ceilDiv n LINES_PER_PAGE + 1

/-- One record of the `tocEntries` array (pdfEngine.js line 59). -/
structure TocEntry : Type where
  title : String
  dest : String
  page : Nat
deriving DecidableEq

/-- The per-file anchor id picked at pdfEngine.js line 54. -/
def destId (i : Nat) : String := "dest_" ++ toString i

/-- Pages committed before the render loop starts: the cover page (line 40),
    the page drawCover's trailing addPage creates (line 132), the reserved
    index pages (line 46), and the first content page (line 47). -/
def pagesAfterSetup (n : Nat) : Nat := 2 + requiredIndexPages n + 1

/-- The render loop (pdfEngine.js lines 51-87) restricted to its effect on
    the page counter and the toc: for each file, add a page unless it is the
    first (line 56), capture `doc.bufferedPageRange().count` (line 57) as the
    entry's page, then let drawContent add that file's overflow pages. -/
def renderFiles : Nat → Nat → List (String × Nat) → List TocEntry
  | _, _, [] => []
  | i, pages, (title, overflow) :: rest =>
    let cur := if 0 < i then pages + 1 else pages
    ⟨title, destId i, cur⟩ :: renderFiles (i + 1) (cur + overflow) rest

/-- The toc produced by PDFEngine.process for a list of files. -/
def processToc (files : List (String × Nat)) : List TocEntry :=
  renderFiles 0 (pagesAfterSetup files.length) files

/-- Total overflow pages contributed by the first `j` files. -/
def overflowSum (files : List (String × Nat)) (j : Nat) : Nat :=
  ((files.take j).map (fun f => f.2)).sum

theorem overflowSum_zero (files : List (String × Nat)) : overflowSum files 0 = 0 := by
  simp [overflowSum]

theorem overflowSum_cons (t : String) (ov : Nat) (rest : List (String × Nat))
    (j : Nat) :
    overflowSum ((t, ov) :: rest) (j + 1) = ov + overflowSum rest j := by
  simp [overflowSum, List.take_succ_cons]

theorem renderFiles_page (files : List (String × Nat)) :
    ∀ (p0 i0 j : Nat) (e : TocEntry),
      (renderFiles (i0 + 1) p0 files)[j]? = some e →
      e.page = p0 + (j + 1) + overflowSum files j := by
  induction files with
  | nil => intro p0 i0 j e h; simp [renderFiles] at h
  | cons f rest ih =>
    intro p0 i0 j e h
    obtain ⟨t, ov⟩ := f
    cases j with
    | zero =>
      simp only [renderFiles, List.getElem?_cons_zero, Option.some.injEq] at h
      rw [← h, overflowSum_zero]
      simp
    | succ j =>
      simp only [renderFiles, List.getElem?_cons_succ] at h
      rw [if_pos (Nat.zero_lt_succ i0)] at h
      have := ih (p0 + 1 + ov) (i0 + 1) j e h
      rw [overflowSum_cons]
      omega

theorem processToc_page (files : List (String × Nat)) (j : Nat) (e : TocEntry)
    (h : (processToc files)[j]? = some e) :
    e.page = pagesAfterSetup files.length + j + overflowSum files j := by
  unfold processToc at h
  rcases files with _ | ⟨⟨t, ov⟩, rest⟩
  · simp [renderFiles] at h
  · cases j with
    | zero =>
      simp only [renderFiles, List.getElem?_cons_zero, Option.some.injEq] at h
      rw [← h, overflowSum_zero]
      simp [renderFiles]
    | succ j =>
      simp only [renderFiles, List.getElem?_cons_succ] at h
      have := renderFiles_page rest (pagesAfterSetup (((t, ov) :: rest)).length + ov) 0 j e h
      rw [overflowSum_cons]
      omega

theorem overflowSum_succ_of_get (files : List (String × Nat)) (j : Nat)
    (f : String × Nat) (h : files[j]? = some f) :
    overflowSum files (j + 1) = overflowSum files j + f.2 := by
  unfold overflowSum
  rw [List.take_succ, h]
  simp

/-- C1: the page number stored in a file's TocEntry is the page-counter
    value at the moment the file's first page is created — the setup pages
    plus one page per earlier file plus the earlier files' overflow pages,
    and not the file's own overflow; consequently when a file's section
    spans `f.2 + 1` pages, the next entry's page number exceeds it by
    exactly that span. -/
theorem tocEntry_page_capture (files : List (String × Nat)) (j : Nat) :
    (∀ e : TocEntry, (processToc files)[j]? = some e →
      e.page = pagesAfterSetup files.length + j + overflowSum files j) ∧
    (∀ (e e2 : TocEntry) (f : String × Nat),
      (processToc files)[j]? = some e →
      (processToc files)[j + 1]? = some e2 →
      files[j]? = some f →
      e2.page = e.page + (f.2 + 1)) := by
  refine ⟨fun e h => processToc_page files j e h, ?_⟩
  intro e e2 f h1 h2 hf
  have p1 := processToc_page files j e h1
  have p2 := processToc_page files (j + 1) e2 h2
  rw [overflowSum_succ_of_get files j f hf] at p2
  omega

theorem tocEntry_page_capture_witness :
    (⟨"b", destId 1, 10⟩ : TocEntry).page =
      (⟨"a", destId 0, 5⟩ : TocEntry).page + (4 + 1) :=
  (tocEntry_page_capture [("a", 4), ("b", 0)] 0).2
    ⟨"a", destId 0, 5⟩ ⟨"b", destId 1, 10⟩ ("a", 4) (by decide) (by decide) rfl

/-! ### Index page reservation (claim C9) -/

/-- Kinds of pages, in the order PDFEngine.process creates them. -/
inductive PageKind : Type where
  | cover : PageKind
  | coverTail : PageKind
  | reserved : PageKind
  | content : PageKind
deriving DecidableEq

/-- Content pages the render loop adds beyond the first content page: one
    per file after the first (line 56) plus each file's overflow pages. -/
def extraContentPages : Nat → List (String × Nat) → Nat
  | _, [] => 0
  | i, (_, ov) :: rest => (if 0 < i then 1 else 0) + ov + extraContentPages (i + 1) rest

/-- The document's pages in creation order: cover page, drawCover's trailing
    page, the reserved index pages of line 46, then all content pages
    (line 47 and the render loop). -/
def docPages (files : List (String × Nat)) : List PageKind :=
  [PageKind.cover, PageKind.coverTail] ++
    List.replicate (requiredIndexPages files.length) PageKind.reserved ++
    List.replicate (1 + extraContentPages 0 files) PageKind.content

/-- C9: the reservation loop creates exactly `ceil(N / 35) + 1` blank
    pages, and it runs before any content page is added, so every reserved
    page's position precedes every content page's position. -/
theorem index_reservation (files : List (String × Nat)) :
    (docPages files).count PageKind.reserved =
      ceilDiv files.length LINES_PER_PAGE + 1 ∧
    (∀ i j : Nat, (docPages files)[i]? = some PageKind.reserved →
      (docPages files)[j]? = some PageKind.content → i < j) := by
  constructor
  · unfold docPages requiredIndexPages
    rw [List.count_append, List.count_append, List.count_replicate,
      List.count_replicate]
    simp
  · intro i j hi hj
    have hiLt : i < 2 + requiredIndexPages files.length := by
      by_contra hc
      push_neg at hc
      unfold docPages at hi
      rw [List.getElem?_append_right (by simp; omega)] at hi
      have hmem := List.getElem?_mem hi
      have := List.eq_of_mem_replicate hmem
      exact PageKind.noConfusion this
    have hjGe : 2 + requiredIndexPages files.length ≤ j := by
      by_contra hc
      push_neg at hc
      unfold docPages at hj
      rw [List.getElem?_append_left (by simp; omega)] at hj
      have hmem := List.getElem?_mem hj
      simp only [List.cons_append, List.mem_cons] at hmem
      rcases hmem with h | h | h
      · exact PageKind.noConfusion h
      · exact PageKind.noConfusion h
      · rw [List.nil_append] at h
        have := List.eq_of_mem_replicate h
        exact PageKind.noConfusion this
    omega

theorem index_reservation_witness : (2 : Nat) < 3 :=
  (index_reservation []).2 2 3 (by decide) (by decide)

/-! ## Job records and retention
    (src/services/jobManager.js, src/config/constants.js)

    The singleton JobManager holds an id-to-record map; `complete` schedules
    a `setTimeout` that deletes the record after the retention window, which
    the model keeps as an explicit list of pending (fire time, job id)
    deletions.  `fail` issues no such schedule. -/

/-- `CONSTANTS.LIMITS.JOB_RETENTION_MS` (constants.js line 19). -/
def JOB_RETENTION_MS : Nat := 600000

/-- One record of `this.jobs` (jobManager.js lines 11-17 plus the fields
    `complete` adds). -/
structure Job : Type where
  id : String
  status : String
  percent : Nat
  message : String
  startTime : Nat
  downloadUrl : Option String
deriving DecidableEq

/-- The partial-record argument of `update(jobId, data)`: absent fields keep
    their old value under the spread merge at jobManager.js line 28. -/
structure JobPatch : Type where
  status : Option String := none
  percent : Option Nat := none
  message : Option String := none
  downloadUrl : Option String := none

/-- Spread merge `{ ...this.jobs[jobId], ...data }`. -/
def applyPatch (j : Job) (p : JobPatch) : Job :=
  { j with
    status := p.status.getD j.status
    percent := p.percent.getD j.percent
    message := p.message.getD j.message
    downloadUrl := match p.downloadUrl with
      | some u => some u
      | none => j.downloadUrl }

/-- The JobManager singleton's state: the job map (a JS object keyed by job
    id, modelled as a function) and the pending `setTimeout` deletions
    (fire time, job id). -/
structure JMState : Type where
  jobs : String → Option Job
  timers : List (Nat × String)

def emptyJM : JMState := ⟨fun _ => none, []⟩

/-- JS `this.jobs[jobId] = j`. -/
def setJob (jobs : String → Option Job) (id : String) (j : Job) :
    String → Option Job :=
  fun x => if x = id then some j else jobs x

/-- JS `delete this.jobs[jobId]`. -/
def eraseJob (jobs : String → Option Job) (id : String) :
    String → Option Job :=
  fun x => if x = id then none else jobs x

/-- JobManager.create (jobManager.js lines 10-20). -/
def create (s : JMState) (id : String) (now : Nat) : JMState :=
  let j : Job :=
    { id := id, status := "pending", percent := 0,
      message := "Initializing...", startTime := now, downloadUrl := none }
  { s with jobs := setJob s.jobs id j }

/-- JobManager.update (jobManager.js lines 26-30): merge when the job
    exists, do nothing otherwise. -/
def update (s : JMState) (id : String) (p : JobPatch) : JMState :=
  match s.jobs id with
  | none => s
  | some j => { s with jobs := setJob s.jobs id (applyPatch j p) }

/-- JobManager.fail (jobManager.js lines 32-35): a status/message update and
    nothing else — no removal is scheduled. -/
def fail (s : JMState) (id : String) (msg : String) : JMState :=
  update s id { status := some "failed", message := some ("Error: " ++ msg) }

/-- JobManager.complete (jobManager.js lines 37-50): the terminal update
    plus a scheduled deletion after JOB_RETENTION_MS. -/
def complete (s : JMState) (id : String) (url : String) (now : Nat) : JMState :=
  let p : JobPatch :=
    { status := some "completed", percent := some 100,
      message := some "Done!", downloadUrl := some url }
  let s1 := update s id p
  { s1 with timers := s1.timers ++ [(now + JOB_RETENTION_MS, id)] }

/-- Fire every scheduled deletion whose time has arrived: each one deletes
    its job id when still present (the `setTimeout` body at lines 47-49). -/
def fireDue (now : Nat) (s : JMState) : JMState :=
  { jobs := (s.timers.filter (fun x => decide (x.1 ≤ now))).foldl
      (fun js x => eraseJob js x.2) s.jobs,
    timers := s.timers.filter (fun x => !(decide (x.1 ≤ now))) }

/-- A patch that carries no status never changes a stored job's status. -/
theorem update_keeps_status (s : JMState) (id : String) (p : JobPatch)
    (hp : p.status = none) :
    ((update s id p).jobs id).map Job.status = (s.jobs id).map Job.status := by
  unfold update
  cases h : s.jobs id with
  | none => simp [h]
  | some j =>
    show (setJob s.jobs id (applyPatch j p) id).map Job.status = _
    simp [setJob, applyPatch, hp]

/-- JobManager.fail never touches the scheduled deletions. -/
theorem fail_keeps_timers (s : JMState) (id msg : String) :
    (fail s id msg).timers = s.timers := by
  unfold fail update
  cases h : s.jobs id <;> rfl

/-- C5 is contradicted by the code: the engine's first update when
    processing begins (the "Extracting..." message, pdfEngine.js line 20)
    leaves the record at the status `"pending"` set by `create` — it is
    never `"processing"` — and the status then moves directly to
    `"completed"`. -/
theorem processing_status_never_set :
    ((update (create emptyJM "1" 0) "1"
        ⟨none, none, some "Extracting...", none⟩).jobs "1").map Job.status =
      some "pending" ∧
    some "pending" ≠ some "processing" ∧
    ((complete (update (create emptyJM "1" 0) "1"
        ⟨none, none, some "Extracting...", none⟩) "1" "/downloads/a.pdf" 9).jobs
          "1").map Job.status = some "completed" :=
  ⟨rfl, by decide, rfl⟩

/-- C6 is contradicted by the code: `fail` schedules no deletion at all
    (it only merges status and message, see fail_keeps_timers), so a failed
    job's record survives any amount of elapsed time after its terminal
    status, while a completed job's record is deleted once the retention
    window elapses. -/
theorem failed_job_never_purged :
    (fail (create emptyJM "1" 0) "1" "boom").timers = [] ∧
    ((fireDue (2 * JOB_RETENTION_MS)
        (fail (create emptyJM "1" 0) "1" "boom")).jobs "1").map Job.status =
      some "failed" ∧
    (fireDue JOB_RETENTION_MS
        (complete (create emptyJM "2" 0) "2" "/downloads/a.pdf" 0)).jobs "2" =
      none := by
  refine ⟨rfl, rfl, ?_⟩
  show (fireDue 600000
      (complete (create emptyJM "2" 0) "2" "/downloads/a.pdf" 0)).jobs "2" =
    none
  rfl

end Zenith
